import Mathlib

/-!
Verification development for the `balls` repository (balls9.py, pend.py, tune.py).

The Python sources are shallowly embedded into Lean: Python floats are
modelled as exact rationals (`ℚ`), Python ints as `ℤ`/`ℕ`, Python lists as
`List`, and the mutable objects (`Tones`, the ball collection) as structures
threaded through explicit state-passing functions.  Transcendental library
calls (`math.sin`, `math.exp`) are modelled as function parameters, and
`random.random()` as a stream parameter, so every definition stays
executable.  `math.pi` is embedded as the exact rational value of the IEEE
double that Python's `math.pi` denotes.
-/

/-- The exact rational value of the IEEE-754 double `math.pi`
(3.141592653589793115997963...). -/
def mathPi : ℚ := 884279719003555 / 281474976710656

/-- Value `2.0 * math.pi`, as used throughout the sources. -/
def pi2 : ℚ := 2 * mathPi

/-- Value `math.pi * 0.5`, as used in `WillCollide`. -/
def piby2 : ℚ := mathPi * (1 / 2)

/-- Python `int(x)` / the truncation used by `math.fmod`: rounds toward
zero.  Since `q.den > 0`, `Int.div q.num q.den` (T-division) is exactly
truncation toward zero. -/
def qtrunc (q : ℚ) : ℤ := Int.tdiv q.num q.den

/-- Python `math.fmod(x, y) = x - y * trunc(x / y)` (result carries the sign
of `x`). -/
def qfmod (x y : ℚ) : ℚ := x - y * (qtrunc (x / y) : ℚ)

/-- Embedding of `Elastic(m1, m2, v1, v2)` from balls9.py lines 35-41 (identical in
pend.py lines 36-42): the pair of post-collision velocities
`(vp1, vp2)` with `vp2 = ((m2*v2) + (m1*((2*v1) - v2))) / (m1 + m2)` and
`vp1 = vp2 + v2 - v1`. -/
def Elastic (m1 m2 v1 v2 : ℚ) : ℚ × ℚ :=
  let vp2 := ((m2 * v2) + (m1 * ((2 * v1) - v2))) / (m1 + m2)
  let vp1 := vp2 + v2 - v1
  (vp1, vp2)

/-- C1: for all masses `m1, m2` with `m1 + m2 ≠ 0` and all velocities
`v1, v2`, `Elastic` returns velocities that conserve total momentum
`m1*v1 + m2*v2` and total kinetic energy `½m1v1² + ½m2v2²`, exactly over
rational arithmetic. -/
theorem Elastic_conserves_momentum_energy (m1 m2 v1 v2 : ℚ) (h : m1 + m2 ≠ 0) :
    m1 * (Elastic m1 m2 v1 v2).1 + m2 * (Elastic m1 m2 v1 v2).2 = m1 * v1 + m2 * v2 ∧
    (1 / 2) * m1 * (Elastic m1 m2 v1 v2).1 ^ 2 + (1 / 2) * m2 * (Elastic m1 m2 v1 v2).2 ^ 2 =
      (1 / 2) * m1 * v1 ^ 2 + (1 / 2) * m2 * v2 ^ 2 := by
  constructor <;>
    · simp only [Elastic]
      field_simp
      ring

/-- Witness for C1 at the concrete input `m1 = 3, m2 = 5, v1 = 2, v2 = -4`. -/
theorem Elastic_conserves_momentum_energy_witness :
    (3 : ℚ) + 5 ≠ 0 ∧
    (3 * (Elastic 3 5 2 (-4)).1 + 5 * (Elastic 3 5 2 (-4)).2 = 3 * 2 + 5 * (-4) ∧
     (1 / 2) * 3 * (Elastic 3 5 2 (-4)).1 ^ 2 + (1 / 2) * 5 * (Elastic 3 5 2 (-4)).2 ^ 2 =
       (1 / 2) * 3 * 2 ^ 2 + (1 / 2) * 5 * (-4) ^ 2) :=
  ⟨by norm_num, Elastic_conserves_momentum_energy 3 5 2 (-4) (by norm_num)⟩

/-- C10: `Elastic` is an involution: resolving the same pair twice returns
the original velocities (exactly, over rational arithmetic), whenever
`m1 + m2 ≠ 0`. -/
theorem Elastic_involutive (m1 m2 v1 v2 : ℚ) (h : m1 + m2 ≠ 0) :
    Elastic m1 m2 (Elastic m1 m2 v1 v2).1 (Elastic m1 m2 v1 v2).2 = (v1, v2) := by
  simp only [Elastic]
  refine Prod.ext ?_ ?_ <;>
    · simp only
      field_simp
      ring

/-- Witness for C10 at the concrete input `m1 = 3, m2 = 5, v1 = 2, v2 = -4`. -/
theorem Elastic_involutive_witness :
    (3 : ℚ) + 5 ≠ 0 ∧
    Elastic 3 5 (Elastic 3 5 2 (-4)).1 (Elastic 3 5 2 (-4)).2 = (2, -4) :=
  ⟨by norm_num, Elastic_involutive 3 5 2 (-4) (by norm_num)⟩

/-- The angle normalization at the top of `WillCollide` (balls9.py lines
132-139): a negative angle is shifted up by one full turn. -/
def normAngle (a : ℚ) : ℚ := if a < 0 then pi2 + a else a

/-- The wraparound adjustment of `WillCollide` (balls9.py lines 140-143):
if one normalized angle is in the early quadrant and the other past π, the
early one is shifted forward by a full turn. -/
def adjustAngles (sa oa : ℚ) : ℚ × ℚ :=
  if sa < piby2 ∧ mathPi < oa then (sa + pi2, oa)
  else if oa < piby2 ∧ mathPi < sa then (sa, oa + pi2)
  else (sa, oa)

/-- Embedding of `Ball.WillCollide` from balls9.py lines 127-146: `self` has angle `sa0`
and velocity `sv`, `other` has angle `oa0` and velocity `ov`.  Returns
whether `(sa - oa) * (sa + sv - (oa + ov)) <= 0` after normalization and
wraparound adjustment. -/
def willCollide (sa0 sv oa0 ov : ℚ) : Bool :=
  let p := adjustAngles (normAngle sa0) (normAngle oa0)
  decide ((p.1 - p.2) * (p.1 + sv - (p.2 + ov)) ≤ 0)

/-- Embedding of `Pend.WillCollide` from pend.py lines 126-145: identical to the ball
variant except that the per-step angular advance of each pendulum is
`speed * del_t / length`. -/
def willCollidePend (sa0 sspeed sdt slen oa0 ospeed odt olen : ℚ) : Bool :=
  let self_av := sspeed * sdt / slen
  let other_av := ospeed * odt / olen
  let p := adjustAngles (normAngle sa0) (normAngle oa0)
  decide ((p.1 - p.2) * (p.1 + self_av - (p.2 + other_av)) ≤ 0)

theorem piby2_lt_mathPi : piby2 < mathPi := by norm_num [piby2, mathPi]

/-- Swapping the two arguments of `adjustAngles` swaps the two components
of the result. -/
theorem adjustAngles_swap (a b : ℚ) :
    adjustAngles b a = ((adjustAngles a b).2, (adjustAngles a b).1) := by
  have hp := piby2_lt_mathPi
  simp only [adjustAngles]
  split_ifs with h1 h2 h3 h4 h5 h6 <;>
    first
      | rfl
      | (exfalso; rcases h1 with ⟨h1a, h1b⟩ <;> rcases ‹_ ∧ _› with ⟨ha, hb⟩ <;> linarith)

theorem decide_le_zero_congr (x y : ℚ) (h : x = y) :
    decide (x ≤ 0) = decide (y ≤ 0) := by rw [h]

/-- C7: `WillCollide` is symmetric in its two bodies, in both the ball
variant (angles and velocities) and the pendulum variant (angles, speeds,
time steps and lengths). -/
theorem willCollide_symm :
    (∀ sa sv oa ov : ℚ, willCollide sa sv oa ov = willCollide oa ov sa sv) ∧
    (∀ sa ss sdt sl oa os odt ol : ℚ,
      willCollidePend sa ss sdt sl oa os odt ol = willCollidePend oa os odt ol sa ss sdt sl) := by
  have key : ∀ sa sv oa ov : ℚ, willCollide sa sv oa ov = willCollide oa ov sa sv := by
    intro sa sv oa ov
    simp only [willCollide]
    rw [adjustAngles_swap (normAngle sa) (normAngle oa)]
    exact decide_le_zero_congr _ _ (by ring)
  refine ⟨key, fun sa ss sdt sl oa os odt ol => ?_⟩
  show willCollide sa (ss * sdt / sl) oa (os * odt / ol) =
    willCollide oa (os * odt / ol) sa (ss * sdt / sl)
  exact key _ _ _ _

/-- One simulated ball (balls9.py `Ball`): angle in radians, signed angular
velocity `v`, mass `m`.  The display-only fields (color weights, canvas
image, energy bookkeeping for color mapping) are omitted: they never feed
back into positions, velocities or collision detection.  A ball's
`ball_ind` is its position in the managing list. -/
structure BBall where
  angle : ℚ
  v : ℚ
  m : ℚ
deriving Repr, DecidableEq

/-- Embedding of `Ball.UpdatePosition` (balls9.py line 113): advance the angle by the
velocity, wrapped by `math.fmod` into `(-2π, 2π)`.  The canvas drawing is
display-only and omitted. -/
def updatePosition (b : BBall) : BBall :=
  { b with angle := qfmod (b.angle + b.v) pi2 }

/-- The unordered pair scan order of `Orbits.UpdatePositions` (balls9.py
lines 190-191): `(b, b2)` for `b` in `range(n - 1)` and `b2` in
`range(b + 1, n)`. -/
def pairScan (n : ℕ) : List (ℕ × ℕ) :=
  (List.range (n - 1)).flatMap (fun b => (List.range' (b + 1) (n - (b + 1))).map (fun b2 => (b, b2)))

/-- Embedding of `Ball.Collide` (balls9.py lines 148-157) on the ball list: if ball `i`
will collide with ball `j`, apply `Elastic` to update both velocities and
report success.  (`old_e` / `UpdateColor` only affect display colors and
are omitted.) -/
def ballCollide (bs : List BBall) (i j : ℕ) : List BBall × Bool :=
  let bi := bs.getD i ⟨0, 0, 0⟩
  let bj := bs.getD j ⟨0, 0, 0⟩
  if willCollide bi.angle bi.v bj.angle bj.v then
    let vs := Elastic bi.m bj.m bi.v bj.v
    (((bs.set i { bi with v := vs.1 }).set j { bj with v := vs.2 }), true)
  else (bs, false)

/-- One collision-resolution pass of `Orbits.UpdatePositions` (balls9.py
lines 189-195): scan all unordered pairs in order, resolving each
collision as it is found; return the updated balls, the number of
collisions this pass, and the set of indices that collided. -/
def onePass (bs : List BBall) : List BBall × ℕ × Finset ℕ :=
  (pairScan bs.length).foldl
    (fun st p =>
      let r := ballCollide st.1 p.1 p.2
      if r.2 then (r.1, st.2.1 + 1, insert p.1 (insert p.2 st.2.2)) else (r.1, st.2.1, st.2.2))
    (bs, 0, ∅)

/-- The bounded collision-resolution loop of `Orbits.UpdatePositions`
(balls9.py lines 186-200): `while count < 5`, run a pass, increment
`count`, print `'Collision Failure'` once `count > 4`, and break as soon
as a pass produced zero collisions.  Modelled structurally with a fuel
argument satisfying `fuel + count = 5`, so the fuel never runs out before
the `count < 5` guard fails.  Returns the final balls, the per-pass
collision counts (in order), whether the diagnostic was printed, and the
accumulated collided-index set. -/
def runPasses : ℕ → ℕ → List BBall → Finset ℕ → List BBall × List ℕ × Bool × Finset ℕ
  | 0, _, bs, collided => (bs, [], false, collided)
  | fuel + 1, count, bs, collided =>
    if count < 5 then
      let r := onePass bs
      let collided2 := collided ∪ r.2.2
      let printed := decide (count + 1 > 4)
      if r.2.1 = 0 then (r.1, [r.2.1], printed, collided2)
      else
        let rest := runPasses fuel (count + 1) r.1 collided2
        (rest.1, r.2.1 :: rest.2.1, printed || rest.2.2.1, rest.2.2.2)
    else (bs, [], false, collided)

/-- Embedding of `Orbits.UpdatePositions` (balls9.py lines 179-213): advance every
ball, then run the bounded collision-resolution loop.  The background
color adjustment at lines 201-212 is display-only and omitted.  Returns
the final balls, the per-pass collision counts, the printed-diagnostic
flag, and the collided-index set. -/
def updatePositions (bs : List BBall) : List BBall × List ℕ × Bool × Finset ℕ :=
  runPasses 5 0 (bs.map updatePosition) ∅

/-- Loop invariant of `runPasses`, for any call with `fuel + count = 5`
(the shape every call reachable from `updatePositions` has): the pass list
has at most `fuel` entries; the diagnostic is printed exactly when all
`fuel` available passes run; every pass except possibly the last found at
least one collision; an early exit ends with a zero-collision pass; and at
least one pass runs when fuel remains. -/
theorem runPasses_invariant :
    ∀ (fuel count : ℕ), fuel + count = 5 → ∀ (bs : List BBall) (c : Finset ℕ),
      (runPasses fuel count bs c).2.1.length ≤ fuel ∧
      ((runPasses fuel count bs c).2.2.1 = true ↔
        (runPasses fuel count bs c).2.1.length = fuel ∧ 0 < fuel) ∧
      (∀ i, i + 1 < (runPasses fuel count bs c).2.1.length →
        (runPasses fuel count bs c).2.1.getD i 0 ≠ 0) ∧
      ((runPasses fuel count bs c).2.1.length < fuel →
        (runPasses fuel count bs c).2.1.getD ((runPasses fuel count bs c).2.1.length - 1) 1 = 0) ∧
      (0 < fuel → (runPasses fuel count bs c).2.1 ≠ []) := by
  intro fuel
  induction fuel with
  | zero =>
    intro count h bs c
    simp [runPasses]
  | succ fuel ih =>
    intro count h bs c
    have hcount : count < 5 := by omega
    by_cases hz : (onePass bs).2.1 = 0
    · simp only [runPasses, if_pos hcount, hz, if_true]
      refine ⟨by simp, ?_, by simp, ?_, by simp⟩
      · simp only [List.length_cons, List.length_nil, decide_eq_true_eq]
        omega
      · intro _
        simpa using hz
    · have ihr := ih (count + 1) (by omega) (onePass bs).1 (c ∪ (onePass bs).2.2)
      obtain ⟨ih1, ih2, ih3, ih4, ih5⟩ := ihr
      simp only [runPasses, if_pos hcount, if_neg hz]
      set rest := runPasses fuel (count + 1) (onePass bs).1 (c ∪ (onePass bs).2.2) with hrest
      refine ⟨by simpa using ih1, ?_, ?_, ?_, by simp⟩
      · simp only [List.length_cons, Bool.or_eq_true, decide_eq_true_eq]
        constructor
        · rintro (hc | hp)
          · have hf : fuel = 0 := by omega
            subst hf
            exact ⟨by omega, by omega⟩
          · have := ih2.mp hp
            exact ⟨by omega, by omega⟩
        · rintro ⟨hlen, -⟩
          rcases Nat.eq_zero_or_pos fuel with hf | hf
          · left; omega
          · right
            exact ih2.mpr ⟨by omega, hf⟩
      · intro i hi
        cases i with
        | zero => simpa using hz
        | succ i =>
          simp only [List.length_cons] at hi
          simpa using ih3 i (by omega)
      · intro hlt
        simp only [List.length_cons] at hlt ⊢
        have hf : 0 < fuel := by omega
        have hne := ih5 hf
        have hlen1 : 1 ≤ rest.2.1.length := by
          cases hh : rest.2.1 with
          | nil => exact absurd hh hne
          | cons a l => simp [hh]
        have : rest.2.1.length + 1 - 1 = (rest.2.1.length - 1) + 1 := by omega
        rw [this, List.getD_cons_succ]
        exact ih4 (by omega)

/-- C5 (amended): one `UpdatePositions` tick runs at most 5 collision
passes; every pass except possibly the last found at least one collision
(the loop stops as soon as a pass produces zero collisions); if fewer than
5 passes ran, the last pass produced zero collisions; and the
`'Collision Failure'` diagnostic is printed exactly when all 5 passes run
— i.e. when the first 4 passes each produced a collision — regardless of
whether the 5th pass itself still produced collisions. -/
theorem updatePositions_passes_spec (bs : List BBall) :
    (updatePositions bs).2.1.length ≤ 5 ∧
    ((updatePositions bs).2.2.1 = true ↔ (updatePositions bs).2.1.length = 5) ∧
    (∀ i, i + 1 < (updatePositions bs).2.1.length → (updatePositions bs).2.1.getD i 0 ≠ 0) ∧
    ((updatePositions bs).2.1.length < 5 →
      (updatePositions bs).2.1.getD ((updatePositions bs).2.1.length - 1) 1 = 0) := by
  have h := runPasses_invariant 5 0 rfl (bs.map updatePosition) ∅
  obtain ⟨h1, h2, h3, h4, -⟩ := h
  exact ⟨h1, by rw [updatePositions]; rw [h2]; omega, h3, h4⟩

/-- A five-ball Newton's-cradle configuration: equal masses, angles spaced
0.1 apart, the last ball approaching at speed 0.15 so the collision chain
propagates down one pair per pass for four passes and the fifth pass finds
nothing. -/
def exBalls : List BBall :=
  [⟨2, 0, 2⟩, ⟨21/10, 0, 2⟩, ⟨11/5, 0, 2⟩, ⟨23/10, 0, 2⟩, ⟨51/20, -3/20, 2⟩]

set_option maxRecDepth 100000 in
/-- Counterexample to C5 as stated: on `exBalls` the `'Collision Failure'`
diagnostic is printed even though the fifth and final pass produced zero
collisions — the diagnostic is not equivalent to "cap hit with collisions
still occurring". -/
theorem updatePositions_diagnostic_cex :
    (updatePositions exBalls).2.2.1 = true ∧
    (updatePositions exBalls).2.1 = [1, 1, 1, 1, 0] := by
  with_unfolding_all decide

/-- Two balls that collide exactly once: the second approaches the first
and the chain ends after one pass. -/
def exBalls2 : List BBall := [⟨2, 0, 2⟩, ⟨9/4, -3/20, 2⟩]

set_option maxRecDepth 10000 in
/-- Witness for the amended C5 theorem at the concrete two-ball input:
its conditional parts are discharged at pass index 0 and at the early-exit
hypothesis. -/
theorem updatePositions_passes_spec_witness :
    ((updatePositions exBalls2).2.1.getD 0 0 ≠ 0) ∧
    ((updatePositions exBalls2).2.1.getD ((updatePositions exBalls2).2.1.length - 1) 1 = 0) :=
  ⟨(updatePositions_passes_spec exBalls2).2.2.1 0 (by with_unfolding_all decide),
   (updatePositions_passes_spec exBalls2).2.2.2 (by with_unfolding_all decide)⟩

/-- The `Tones` oscillator-bank state (tune.py lines 248-272).  Python
floats are rationals; `math.sin`, `math.exp` and `random.random` are
supplied as parameters to the operations that use them, so the state holds
only numbers.  `ping_samples` and the entries of `ping_inds` are Python
ints (`ℤ`). -/
structure Tones where
  fs : ℚ
  notes : List ℚ
  args : List ℚ
  incs : List ℚ
  amps : List ℚ
  n_notes : ℕ
  ping_notes : List ℚ
  ping_args : List ℚ
  ping_incs : List ℚ
  ping_amps : List ℚ
  ping_decay : ℚ
  ping_reset_amp : ℚ
  ping_samples : ℤ
  ping_inds : List ℤ
  n_pings : ℕ
  ping_is_on : Bool
  chord_is_on : Bool
  detune_is_on : Bool
deriving Repr, DecidableEq

/-- Embedding of `Tones.ResetPings` (tune.py lines 282-291). -/
def resetPings (s : Tones) (max_notes : ℕ) : Tones :=
  { s with
    ping_notes := List.replicate max_notes 0
    ping_args := List.replicate max_notes 0
    ping_incs := List.replicate max_notes 0
    ping_reset_amp := 32000 / (max_notes : ℚ)
    ping_amps := List.replicate max_notes 0
    ping_decay := 9995 / 10000
    ping_samples := qtrunc (s.fs * 1)
    ping_inds := List.replicate max_notes (qtrunc (s.fs * 1))
    n_pings := 0 }

/-- Embedding of `Tones.ResetChord` (tune.py lines 293-299). -/
def resetChord (s : Tones) (max_notes : ℕ) : Tones :=
  { s with
    notes := List.replicate max_notes 0
    args := List.replicate max_notes 0
    incs := List.replicate max_notes 0
    amps := List.replicate max_notes (6000 / (max_notes : ℚ))
    n_notes := 0 }

/-- Embedding of `Tones.__init__` (tune.py lines 251-271): field defaults followed by
`ResetChord(4)` and `ResetPings(10)`, then the three toggles set to True. -/
def tonesInit (sample_rate : ℚ) : Tones :=
  let s : Tones :=
    { fs := sample_rate, notes := [], args := [], incs := [], amps := [], n_notes := 0,
      ping_notes := [], ping_args := [], ping_incs := [], ping_amps := [],
      ping_decay := 9995 / 10000, ping_reset_amp := 1000, ping_samples := 0,
      ping_inds := [], n_pings := 0,
      ping_is_on := true, chord_is_on := true, detune_is_on := true }
  let s := resetChord s 4
  let s := resetPings s 10
  s

/-- Embedding of `Tones.SetupPings` (tune.py lines 301-314).  `rnd i` models the
`random.random()` drawn for slot `i`, and `expq` models `math.exp`. -/
def setupPings (rnd : ℕ → ℚ) (expq : ℚ → ℚ) (s : Tones) (ping_notes : List ℚ)
    (time_const dur : ℚ) : Tones :=
  let s := if s.n_pings < ping_notes.length then resetPings s ping_notes.length else s
  let s := { s with
    ping_notes := ping_notes
    ping_samples := qtrunc (dur * s.fs)
    ping_decay := expq (-1 / (time_const * s.fs)) }
  let incs := (List.range ping_notes.length).foldl
    (fun l i =>
      let freq := if s.detune_is_on then 8 * (rnd i - 1 / 2) + ping_notes.getD i 0
                  else ping_notes.getD i 0
      l.set i (pi2 * freq / s.fs)) s.ping_incs
  { s with ping_incs := incs, n_pings := ping_notes.length }

/-- Embedding of `Tones.Ping` (tune.py lines 316-321) without a frequency override
(`new_ping_freq = None`, the only way the repository calls it). -/
def pingTrigger (s : Tones) (ping_ind : ℕ) : Tones :=
  { s with
    ping_amps := s.ping_amps.set ping_ind s.ping_reset_amp
    ping_inds := s.ping_inds.set ping_ind 0
    ping_args := s.ping_args.set ping_ind 0 }

/-- Embedding of `Tones.ChangeChord` (tune.py lines 323-330): grow (reset) the chord
bank when the new chord is longer than the current `notes` list, replace
`notes`, set `n_notes`, and recompute `incs[i] = 2π·notes[i]/fs` for every
active slot. -/
def changeChord (s : Tones) (new_notes : List ℚ) : Tones :=
  let s := if s.notes.length < new_notes.length then resetChord s new_notes.length else s
  let s := { s with notes := new_notes, n_notes := new_notes.length }
  let incs := (List.range s.n_notes).foldl
    (fun l i => l.set i (pi2 * s.notes.getD i 0 / s.fs)) s.incs
  { s with incs := incs }

/-- The inner sample loop of `Tones.GeneratePingSignal` (tune.py lines
348-351) for one ping slot: produce `ngen` contributions
`famp * sin(farg)`, decaying the amplitude and advancing the phase after
each sample; return the contributions and the final `(famp, farg)`. -/
def pingGen (sinq : ℚ → ℚ) (decay finc : ℚ) : ℕ → ℚ → ℚ → List ℚ × ℚ × ℚ
  | 0, famp, farg => ([], famp, farg)
  | ngen + 1, famp, farg =>
    let contrib := famp * sinq farg
    let r := pingGen sinq decay finc ngen (famp * decay) (qfmod (farg + finc) pi2)
    (contrib :: r.1, r.2)

/-- Add the entries of `c` into the first `c.length` entries of `out`
(the `output[i] += ...` accumulation of `GeneratePingSignal`; `c` is never
longer than `out` there because `ngen <= n_samp`). -/
def addInto : List ℚ → List ℚ → List ℚ
  | out, [] => out
  | [], _ => []
  | o :: out, x :: xs => (o + x) :: addInto out xs

/-- One ping slot's visit in `Tones.GeneratePingSignal` (tune.py lines
341-354): skip slots whose sample budget is exhausted, otherwise generate
`ngen = min(n_samp, ping_samples - ping_inds[ping])` samples and write the
slot's state back. -/
def pingVisit (sinq : ℚ → ℚ) (n_samp : ℕ) (st : List ℚ × Tones) (ping : ℕ) :
    List ℚ × Tones :=
  let output := st.1
  let s := st.2
  if s.ping_inds.getD ping 0 ≥ s.ping_samples then (output, s)
  else
    let ngen := min (n_samp : ℤ) (s.ping_samples - s.ping_inds.getD ping 0)
    let r := pingGen sinq s.ping_decay (s.ping_incs.getD ping 0) ngen.toNat
      (s.ping_amps.getD ping 0) (s.ping_args.getD ping 0)
    (addInto output r.1,
     { s with
        ping_amps := s.ping_amps.set ping r.2.1
        ping_args := s.ping_args.set ping r.2.2
        ping_inds := s.ping_inds.set ping (s.ping_inds.getD ping 0 + ngen) })

/-- Embedding of `Tones.GeneratePingSignal` (tune.py lines 335-355): an all-zero buffer
of `n_samp` samples when pings are toggled off; otherwise every ping slot
adds its decaying sinusoid into the head of the buffer. -/
def generatePingSignal (sinq : ℚ → ℚ) (s : Tones) (n_samp : ℕ) : List ℚ × Tones :=
  let output := List.replicate n_samp (0 : ℚ)
  if s.ping_is_on = false then (output, s)
  else (List.range s.n_pings).foldl (pingVisit sinq n_samp) (output, s)

/-- The chord-bank inner loop of `Tones.GetSamples` (tune.py lines
364-366) for one output sample: add `amps[j] * sin(args[j])` for each
active note `j` and advance each phase. -/
def noteLoop (sinq : ℚ → ℚ) (amps incs : List ℚ) : List ℕ → ℚ → List ℚ → ℚ × List ℚ
  | [], sum, args => (sum, args)
  | j :: js, sum, args =>
    let sum := sum + amps.getD j 0 * sinq (args.getD j 0)
    let args := args.set j (qfmod (args.getD j 0 + incs.getD j 0) pi2)
    noteLoop sinq amps incs js sum args

/-- The outer sample loop of `Tones.GetSamples` (tune.py lines 361-367):
one truncated-int sample per ping-buffer entry. -/
def sampleLoop (sinq : ℚ → ℚ) (amps incs : List ℚ) (n_notes : ℕ) (chord_on : Bool) :
    List ℚ → List ℚ → List ℤ × List ℚ
  | [], args => ([], args)
  | p :: ps, args =>
    let r := if chord_on then noteLoop sinq amps incs (List.range n_notes) p args
             else (p, args)
    let rest := sampleLoop sinq amps incs n_notes chord_on ps r.2
    (qtrunc r.1 :: rest.1, rest.2)

/-- Embedding of `Tones.GetSamples` (tune.py lines 357-368): render `n_samp` integer
samples (ping buffer plus chord bank), threading the mutated phase state. -/
def getSamples (sinq : ℚ → ℚ) (s : Tones) (n_samp : ℕ) : List ℤ × Tones :=
  let pr := generatePingSignal sinq s n_samp
  let r := sampleLoop sinq pr.2.amps pr.2.incs pr.2.n_notes pr.2.chord_is_on pr.1 pr.2.args
  (r.1, { pr.2 with args := r.2 })

theorem addInto_length (out c : List ℚ) : (addInto out c).length = out.length := by
  induction out generalizing c with
  | nil => cases c <;> rfl
  | cons o os ih =>
    cases c with
    | nil => rfl
    | cons x xs => simpa [addInto] using ih xs

theorem pingVisit_fst_length (sinq : ℚ → ℚ) (n_samp : ℕ) (st : List ℚ × Tones) (ping : ℕ) :
    (pingVisit sinq n_samp st ping).1.length = st.1.length := by
  rw [pingVisit]
  split
  · rfl
  · simpa using addInto_length _ _

theorem pingFold_fst_length (sinq : ℚ → ℚ) (n_samp : ℕ) (l : List ℕ) :
    ∀ st : List ℚ × Tones,
      (l.foldl (pingVisit sinq n_samp) st).1.length = st.1.length := by
  induction l with
  | nil => intro st; rfl
  | cons p ps ih =>
    intro st
    rw [List.foldl_cons, ih (pingVisit sinq n_samp st p), pingVisit_fst_length]

theorem generatePingSignal_length (sinq : ℚ → ℚ) (s : Tones) (n : ℕ) :
    (generatePingSignal sinq s n).1.length = n := by
  rw [generatePingSignal]
  split
  · simp
  · rw [pingFold_fst_length]
    simp

theorem sampleLoop_length (sinq : ℚ → ℚ) (amps incs : List ℚ) (nn : ℕ) (con : Bool) :
    ∀ (ps args : List ℚ),
      (sampleLoop sinq amps incs nn con ps args).1.length = ps.length := by
  intro ps
  induction ps with
  | nil => intro args; rfl
  | cons p pt ih =>
    intro args
    simp only [sampleLoop, List.length_cons]
    rw [ih]

theorem generatePingSignal_silent (sinq : ℚ → ℚ) (s : Tones) (n : ℕ)
    (h : s.n_pings = 0 ∨ s.ping_is_on = false) :
    generatePingSignal sinq s n = (List.replicate n 0, s) := by
  rw [generatePingSignal]
  rcases h with h | h
  · rw [h]
    split <;> rfl
  · rw [h]
    rfl

theorem qtrunc_zero : qtrunc 0 = 0 := rfl

theorem sampleLoop_silent (sinq : ℚ → ℚ) (amps incs : List ℚ) (nn : ℕ) (con : Bool)
    (h : nn = 0 ∨ con = false) :
    ∀ (n : ℕ) (args : List ℚ),
      sampleLoop sinq amps incs nn con (List.replicate n 0) args = (List.replicate n 0, args) := by
  intro n
  induction n with
  | zero => intro args; rfl
  | succ k ih =>
    intro args
    have hstep : (if con then noteLoop sinq amps incs (List.range nn) 0 args
        else ((0 : ℚ), args)) = (0, args) := by
      rcases h with h | h
      · subst h
        split <;> rfl
      · rw [h]
        simp
    simp only [List.replicate_succ, sampleLoop, hstep, ih args, qtrunc_zero]

/-- C8: for every sample count `n`, every sine model and every engine
state, `GetSamples(n)` returns exactly `n` integer samples; moreover, when
both banks are inactive (`n_pings = n_notes = 0`) or both toggles are off,
every sample is `0` (the output is all-silence). -/
theorem getSamples_spec (sinq : ℚ → ℚ) (s : Tones) (n : ℕ) :
    (getSamples sinq s n).1.length = n ∧
    ((s.n_pings = 0 ∧ s.n_notes = 0) ∨ (s.ping_is_on = false ∧ s.chord_is_on = false) →
      (getSamples sinq s n).1 = List.replicate n 0) := by
  constructor
  · show (sampleLoop sinq _ _ _ _ (generatePingSignal sinq s n).1 _).1.length = n
    rw [sampleLoop_length, generatePingSignal_length]
  · intro h
    have hping : s.n_pings = 0 ∨ s.ping_is_on = false := by
      rcases h with ⟨h1, -⟩ | ⟨h1, -⟩
      · exact Or.inl h1
      · exact Or.inr h1
    have hchord : s.n_notes = 0 ∨ s.chord_is_on = false := by
      rcases h with ⟨-, h2⟩ | ⟨-, h2⟩
      · exact Or.inl h2
      · exact Or.inr h2
    show (sampleLoop sinq _ _ _ _ (generatePingSignal sinq s n).1
      (generatePingSignal sinq s n).2.args).1 = List.replicate n 0
    rw [generatePingSignal_silent sinq s n hping]
    rw [sampleLoop_silent sinq s.amps s.incs s.n_notes s.chord_is_on hchord n s.args]

/-- Witness for C8 at the concrete input: the freshly initialized engine
(`Tones(22050)`, both active counts zero), identity sine model, 2 samples. -/
theorem getSamples_spec_witness :
    (getSamples (fun x => x) (tonesInit 22050) 2).1.length = 2 ∧
    (getSamples (fun x => x) (tonesInit 22050) 2).1 = List.replicate 2 0 :=
  ⟨(getSamples_spec (fun x => x) (tonesInit 22050) 2).1,
   (getSamples_spec (fun x => x) (tonesInit 22050) 2).2 (Or.inl ⟨rfl, rfl⟩)⟩

/-- An engine state like `Tones(22050)` after sample rendering has advanced
the slot-0 sustained phase to 0.5 radians (chord bank size 4). -/
def exTonesPhase : Tones := { tonesInit 22050 with args := [1/2, 0, 0, 0] }

/-- Counterexample to C2 as stated: growing the chord bank from 4 to 5
slots with `ChangeChord` goes through `ResetChord`, which zeroes every
phase — slot 0 (an index below the old bank size) does not keep its phase
0.5. -/
theorem bankGrowth_cex :
    exTonesPhase.notes.length = 4 ∧
    exTonesPhase.args.getD 0 0 = 1/2 ∧
    (changeChord exTonesPhase [200, 300, 400, 500, 600]).args.getD 0 0 = 0 := by
  refine ⟨rfl, by norm_num [exTonesPhase, tonesInit, resetChord, resetPings], ?_⟩
  with_unfolding_all decide

/-- C2 (amended): a bank-growing `ChangeChord` (more notes than the current
`notes` list) or `SetupPings` (more notes than `n_pings`) does not preserve
lower-indexed oscillator state; it reinitializes the whole bank: every
slot's phase becomes 0 and every amplitude is reset (to
`6000/newSize` for the chord bank, to 0 for the ping bank). -/
theorem bankGrowth_resets (s : Tones) (nn : List ℚ) (rnd : ℕ → ℚ) (expq : ℚ → ℚ)
    (pn : List ℚ) (tc dur : ℚ) :
    (s.notes.length < nn.length →
      (changeChord s nn).args = List.replicate nn.length 0 ∧
      (changeChord s nn).amps = List.replicate nn.length (6000 / (nn.length : ℚ))) ∧
    (s.n_pings < pn.length →
      (setupPings rnd expq s pn tc dur).ping_args = List.replicate pn.length 0 ∧
      (setupPings rnd expq s pn tc dur).ping_amps = List.replicate pn.length 0) := by
  constructor
  · intro h
    simp [changeChord, resetChord, if_pos h]
  · intro h
    simp [setupPings, resetPings, if_pos h]

/-- Witness for the amended C2 theorem: growing the fresh engine's chord
bank from 4 to 5 slots and its ping count from 0 to 1. -/
theorem bankGrowth_resets_witness :
    ((tonesInit 22050).notes.length < 5 ∧
      (changeChord (tonesInit 22050) [1, 2, 3, 4, 5]).args = List.replicate 5 0 ∧
      (changeChord (tonesInit 22050) [1, 2, 3, 4, 5]).amps = List.replicate 5 (6000 / 5)) ∧
    ((tonesInit 22050).n_pings < 1 ∧
      (setupPings (fun _ => 0) (fun x => x) (tonesInit 22050) [10] (1/2) 1).ping_args =
        List.replicate 1 0 ∧
      (setupPings (fun _ => 0) (fun x => x) (tonesInit 22050) [10] (1/2) 1).ping_amps =
        List.replicate 1 0) := by
  have h5 : (tonesInit 22050).notes.length < 5 := by with_unfolding_all decide
  have h1 : (tonesInit 22050).n_pings < 1 := by with_unfolding_all decide
  have hmain := bankGrowth_resets (tonesInit 22050) [1, 2, 3, 4, 5] (fun _ => 0) (fun x => x)
    [10] (1/2) 1
  refine ⟨⟨h5, ?_⟩, ⟨h1, ?_⟩⟩
  · simpa using hmain.1 h5
  · simpa using hmain.2 h1

set_option maxRecDepth 100000 in
/-- Counterexample to C3 as stated: on the fresh engine (chord bank
capacity 4 from `ResetChord(4)`) a `ChangeChord` with 3 notes does not
grow the bank and leaves every amplitude at `6000/4 = 1500`, not
`6000/3 = 2000` — the amplitude is not the fixed total divided by the
active note count. -/
theorem changeChord_amp_cex :
    (changeChord (tonesInit 22050) [440, 550, 660]).n_notes = 3 ∧
    (changeChord (tonesInit 22050) [440, 550, 660]).amps.getD 0 0 = 1500 ∧
    ¬ ((1500 : ℚ) = 6000 / 3) := by
  refine ⟨?_, ?_, by norm_num⟩ <;> with_unfolding_all decide

/-- C3 (amended): under the amplitude invariant that `ResetChord`
establishes and every `ChangeChord` preserves — each amplitude equals
`6000` divided by the amps-list capacity, and the capacity is at least the
`notes` length — a `ChangeChord(nn)` leaves every amplitude equal to
`6000 / capacity`, where the capacity is `nn.length` if the call grew the
bank and the old capacity otherwise.  The amplitude equals
`6000 / activeNoteCount` only in the growing case. -/
theorem changeChord_amp_spec (s : Tones) (nn : List ℚ)
    (hamp : ∀ a ∈ s.amps, a = 6000 / (s.amps.length : ℚ))
    (hlen : s.notes.length ≤ s.amps.length) :
    (changeChord s nn).amps.length =
      (if s.notes.length < nn.length then nn.length else s.amps.length) ∧
    (∀ a ∈ (changeChord s nn).amps, a = 6000 / ((changeChord s nn).amps.length : ℚ)) ∧
    (changeChord s nn).n_notes = nn.length ∧
    (changeChord s nn).notes.length ≤ (changeChord s nn).amps.length := by
  by_cases h : s.notes.length < nn.length
  · have hc : changeChord s nn =
        { resetChord s nn.length with
            notes := nn, n_notes := nn.length,
            incs := (List.range nn.length).foldl
              (fun l i => l.set i (pi2 * nn.getD i 0 / s.fs))
              (resetChord s nn.length).incs } := by
      simp [changeChord, resetChord, if_pos h]
    rw [hc]
    refine ⟨by simp [resetChord, if_pos h], ?_, rfl, by simp [resetChord]⟩
    intro a ha
    simp only [resetChord, List.length_replicate] at ha ⊢
    exact List.eq_of_mem_replicate ha
  · have hc : changeChord s nn =
        { s with
            notes := nn, n_notes := nn.length,
            incs := (List.range nn.length).foldl
              (fun l i => l.set i (pi2 * nn.getD i 0 / s.fs)) s.incs } := by
      simp [changeChord, if_neg h]
    rw [hc]
    exact ⟨by simp [if_neg h], hamp, rfl, by simpa using le_trans (le_of_not_lt h) hlen⟩

set_option maxRecDepth 100000 in
/-- Witness for the amended C3 theorem on the fresh engine with the
three-note chord `[440, 550, 660]`: the bank does not grow, so the
capacity stays 4 and every amplitude stays `6000/4`. -/
theorem changeChord_amp_spec_witness :
    (changeChord (tonesInit 22050) [440, 550, 660]).amps.length =
      (if (tonesInit 22050).notes.length < 3 then 3 else (tonesInit 22050).amps.length) ∧
    (∀ a ∈ (changeChord (tonesInit 22050) [440, 550, 660]).amps,
      a = 6000 / (((changeChord (tonesInit 22050) [440, 550, 660]).amps.length : ℚ))) ∧
    (changeChord (tonesInit 22050) [440, 550, 660]).n_notes = 3 ∧
    (changeChord (tonesInit 22050) [440, 550, 660]).notes.length ≤
      (changeChord (tonesInit 22050) [440, 550, 660]).amps.length := by
  have := changeChord_amp_spec (tonesInit 22050) [440, 550, 660]
    (by with_unfolding_all decide) (by with_unfolding_all decide)
  simpa using this

/-- The fixed scale-degree table `Notes.progression_steps` (tune.py lines
119-120), keyed by the uppercased roman-numeral prefix. -/
def progressionSteps (s : List Char) : Option ℤ :=
  if s = ['I'] then some 0
  else if s = ['I', 'I'] then some 2
  else if s = ['I', 'I', 'I'] then some 4
  else if s = ['I', 'V'] then some 5
  else if s = ['V'] then some 7
  else if s = ['V', 'I'] then some 9
  else if s = ['V', 'I', 'I'] then some 11
  else none

/-- The chord-stack construction of `Notes.ChordSpecToIndices` (tune.py
lines 192-229) after the scale degree has been resolved to `step`:
compute the (possibly flatted) root `interval`, the quality-dependent
third/fifth/seventh intervals, stack them, reduce any offset at or above
the table size `n_notes` modulo 12, and sort ascending.  (`list.sort` is a
stable ascending sort; on integers its output equals any ascending sort,
modelled with `List.insertionSort`.) -/
def chordIndices (n_notes : ℕ) (flatted : Bool) (sint sp : List Char) (step : ℤ) : List ℤ :=
  let interval : ℤ := if flatted then step - 1 else step
  let is_minor := !sint.isEmpty && sint.all (fun c => c.isLower)
  let is_dim := sp.contains 'o'
  let has_7 := sp.contains '7'
  let int_2 : ℤ := if is_minor then 3 else 4
  let int_3 : ℤ := if is_minor then 4 else 3
  let int_2 := if is_dim && !is_minor then int_2 - 1 else int_2
  let int_3 := if is_dim && is_minor then int_3 - 1 else int_3
  let int_7 : ℤ :=
    if has_7 then
      (if sint = ['I'] || sint = ['I', 'V'] || sint = ['v', 'i', 'i'] then 11 else 10) -
        (if is_dim then 1 else 0)
    else 0
  let chord := [interval, interval + int_2, interval + int_2 + int_3] ++
    (if int_7 ≠ 0 then [interval + int_7] else [])
  let ninds := chord.map (fun n => if (n_notes : ℤ) ≤ n then n % 12 else n)
  List.insertionSort (· ≤ ·) ninds

/-- Embedding of `Notes.ChordSpecToIndices` (tune.py lines 176-229): strip an optional
leading `'b'` (flat), take the maximal prefix of characters in `'VvIi'`,
look up its uppercase form in the scale-degree table (an unrecognized
specifier reports an error and returns `None`), then build the chord
stack.  `n_notes` is `len(self.notes)`.  (The source raises `IndexError`
on the empty string at `spec[0]`; the model folds that unreachable-via-
`SetupProgression`-with-nonempty-tokens case into `none` as well.) -/
def chordSpecToIndices (n_notes : ℕ) (spec : List Char) : Option (List ℤ) :=
  let flatted := spec.headD '?' = 'b'
  let sp := if flatted then spec.drop 1 else spec
  let sint := sp.takeWhile (fun c => c == 'V' || c == 'v' || c == 'I' || c == 'i')
  (progressionSteps (sint.map Char.toUpper)).map (chordIndices n_notes flatted sint sp)

/-- Python list indexing `l[i]`: negative indices address from the end;
anything out of range raises (`none`). -/
def pyIndex (l : List ℚ) (i : ℤ) : Option ℚ :=
  let j := if i < 0 then (l.length : ℤ) + i else i
  if 0 ≤ j ∧ j < (l.length : ℤ) then l.get? j.toNat else none

/-- Embedding of `Notes.ChordSpecToNotes` (tune.py lines 231-235): `None` (falsy) index
lists propagate as `None`; otherwise the note table is indexed at each
chord index. -/
def chordSpecToNotes (table : List ℚ) (spec : List Char) : Option (List ℚ) :=
  match chordSpecToIndices table.length spec with
  | none => none
  | some inds => if inds.isEmpty then none else inds.mapM (pyIndex table)

/-- The chord-resolution loop of `Music.SetupProgression` (tune.py lines
398-402): starting from a fresh empty list, append
`ChordSpecToNotes(chord)` — which may be `None` — for every entry of the
progression, in order.  (The parallel `names` list is print-only and
omitted.) -/
def setupProgression (table : List ℚ) (progression : List (List Char)) :
    List (Option (List ℚ)) :=
  progression.foldl (fun chords spec => chords ++ [chordSpecToNotes table spec]) []

/-- Embedding of `Music.ChangeChord` (tune.py lines 444-447): look up
`self.chords[chord_ind]` and hand it to `Tones.ChangeChord`.  An
out-of-range index raises (`IndexError`), and a `None` placeholder from a
failed resolution raises inside `Tones.ChangeChord` at `len(None)`; both
failures are `none`.  (The `print_progression` branch only prints.) -/
def musicChangeChord (chords : List (Option (List ℚ))) (s : Tones) (chord_ind : ℕ) :
    Option Tones :=
  match chords.get? chord_ind with
  | none => none
  | some none => none
  | some (some c) => some (changeChord s c)

/-- The inner `for note in notes` loop of
`Music.MakeChordCompatiblePingNotes` (tune.py lines 455-459): append
`note * multiplier` and count, breaking once `pingc >= n_pings`. -/
def innerPing (n_pings : ℕ) (mult : ℚ) : List ℚ → ℕ → List ℚ → List ℚ × ℕ
  | [], pingc, pings => (pings, pingc)
  | note :: rest, pingc, pings =>
    let pings := pings ++ [note * mult]
    let pingc := pingc + 1
    if n_pings ≤ pingc then (pings, pingc)
    else innerPing n_pings mult rest pingc pings

/-- The outer `while pingc <= n_pings` loop of
`Music.MakeChordCompatiblePingNotes` (tune.py lines 454-460), doubling the
multiplier after each sweep of the chord.  `fuel` bounds the number of
sweeps; on a nonempty chord each sweep appends at least one ping, so
`n_pings + 1` sweeps always suffice, while on an empty chord the source
loops forever (`none`). -/
def pingOuter (notes : List ℚ) (n_pings : ℕ) : ℕ → ℚ → ℕ → List ℚ → Option (List ℚ)
  | 0, _, pingc, pings => if pingc ≤ n_pings then none else some pings
  | fuel + 1, mult, pingc, pings =>
    if pingc ≤ n_pings then
      let r := innerPing n_pings mult notes pingc pings
      pingOuter notes n_pings fuel (mult * 2) r.2 r.1
    else some pings

/-- The ping-note list built by `Music.MakeChordCompatiblePingNotes`
(tune.py lines 449-461): chord frequencies at octave multiples
`1, 2, 4, …` until more than `n_pings` are collected, sorted ascending. -/
def chordCompatiblePings (notes : List ℚ) (n_pings : ℕ) : Option (List ℚ) :=
  (pingOuter notes n_pings (n_pings + 1) 1 0 []).map (List.insertionSort (· ≤ ·))

/-- Embedding of `Music.MakeChordCompatiblePingNotes` (tune.py lines 449-462) in full:
build the ping-note list from `self.chords[chord_ind]` and hand it to
`Tones.SetupPings(pings, .5, 1.0)`. -/
def makeChordCompatiblePingNotes (rnd : ℕ → ℚ) (expq : ℚ → ℚ)
    (chords : List (Option (List ℚ))) (s : Tones) (chord_ind n_pings : ℕ) : Option Tones :=
  match chords.get? chord_ind with
  | some (some notes) =>
    (chordCompatiblePings notes n_pings).map
      (fun pings => setupPings rnd expq s pings (1/2) 1)
  | _ => none

theorem setupProgression_eq_map (table : List ℚ) (prog : List (List Char)) :
    setupProgression table prog = prog.map (chordSpecToNotes table) := by
  have key : ∀ (acc : List (Option (List ℚ))),
      prog.foldl (fun chords spec => chords ++ [chordSpecToNotes table spec]) acc =
        acc ++ prog.map (chordSpecToNotes table) := by
    induction prog with
    | nil => intro acc; simp
    | cons p ps ih => intro acc; simp [List.foldl_cons, ih]
  simpa [setupProgression] using key []

/-- C4 (amended): `ChordSpecToIndices` reports an unrecognized specifier
by returning `None` (an error value, not an exception), and
`SetupProgression` continues with the remaining entries — but it does not
skip the bad entry: it appends a `None` placeholder, so the chord list has
one entry per progression entry (`None` at every invalid position), valid
entries resolve in place, and a later `ChangeChord` on a valid entry's
index succeeds while on an invalid entry's index it fails. -/
theorem setupProgression_spec (table : List ℚ) (prog : List (List Char)) (s : Tones) :
    (setupProgression table prog).length = prog.length ∧
    (∀ i spec, prog.get? i = some spec →
      (setupProgression table prog).get? i = some (chordSpecToNotes table spec)) ∧
    (∀ i spec notes, prog.get? i = some spec → chordSpecToNotes table spec = some notes →
      musicChangeChord (setupProgression table prog) s i = some (changeChord s notes)) ∧
    (∀ i spec, prog.get? i = some spec → chordSpecToNotes table spec = none →
      musicChangeChord (setupProgression table prog) s i = none) := by
  rw [setupProgression_eq_map]
  refine ⟨by simp, ?_, ?_, ?_⟩
  · intro i spec hi
    rw [List.get?_map, hi, Option.map_some']
  · intro i spec notes hi hres
    rw [musicChangeChord, List.get?_map, hi, Option.map_some', hres]
  · intro i spec hi hres
    rw [musicChangeChord, List.get?_map, hi, Option.map_some', hres]

/-- The 24-entry note table used in the concrete progression examples (the
frequency values are irrelevant to chord-list structure). -/
def exTable : List ℚ := (List.range 24).map (fun n => (n : ℚ) + 1)

set_option maxRecDepth 100000 in
/-- Counterexample to C4 as stated: resolving the progression
`['I', 'Q']` (with unrecognized specifier `'Q'`) yields a chord list of
length 2 with a `None` placeholder at index 1 — the invalid entry is not
skipped, the list is not "exactly the resolved chords of the valid
specifiers", and a later `ChangeChord` on index 1 fails rather than
succeeding. -/
theorem setupProgression_cex :
    chordSpecToIndices exTable.length ['Q'] = none ∧
    setupProgression exTable [['I'], ['Q']] = [some [1, 5, 8], none] ∧
    setupProgression exTable [['I'], ['Q']] ≠ [some [1, 5, 8]] ∧
    musicChangeChord (setupProgression exTable [['I'], ['Q']]) (tonesInit 22050) 1 = none := by
  refine ⟨?_, ?_, ?_, ?_⟩ <;> with_unfolding_all decide

set_option maxRecDepth 100000 in
/-- Witness for the amended C4 theorem on the progression `['I', 'Q']`:
the length part, the in-place resolution of the valid entry 0, the
successful `ChangeChord` on index 0 and the failing one on index 1. -/
theorem setupProgression_spec_witness :
    (setupProgression exTable [['I'], ['Q']]).length = 2 ∧
    (setupProgression exTable [['I'], ['Q']]).get? 0 = some (chordSpecToNotes exTable ['I']) ∧
    musicChangeChord (setupProgression exTable [['I'], ['Q']]) (tonesInit 22050) 0 =
      some (changeChord (tonesInit 22050) [1, 5, 8]) ∧
    musicChangeChord (setupProgression exTable [['I'], ['Q']]) (tonesInit 22050) 1 = none := by
  have h := setupProgression_spec exTable [['I'], ['Q']] (tonesInit 22050)
  exact ⟨h.1, h.2.1 0 ['I'] rfl,
    h.2.2.1 0 ['I'] [1, 5, 8] rfl (by with_unfolding_all decide),
    h.2.2.2 1 ['Q'] rfl (by with_unfolding_all decide)⟩

theorem progressionSteps_bounds (s : List Char) (v : ℤ) (h : progressionSteps s = some v) :
    0 ≤ v ∧ v ≤ 11 := by
  simp only [progressionSteps] at h
  split_ifs at h <;> cases h <;> omega

theorem chordIndices_bounds (n_notes : ℕ) (flatted : Bool) (sint sp : List Char) (step : ℤ)
    (h12 : 12 ≤ n_notes) (hs : 0 ≤ step ∧ step ≤ 11) :
    (chordIndices n_notes flatted sint sp step).Sorted (· ≤ ·) ∧
    ∀ i ∈ chordIndices n_notes flatted sint sp step, -1 ≤ i ∧ i < (n_notes : ℤ) := by
  constructor
  · exact List.sorted_insertionSort _ _
  · intro i hi
    simp only [chordIndices] at hi
    rw [(List.perm_insertionSort _ _).mem_iff, List.mem_map] at hi
    obtain ⟨n, hn, hfn⟩ := hi
    have hnotes : (12 : ℤ) ≤ (n_notes : ℤ) := by exact_mod_cast h12
    have hlow : -1 ≤ n := by
      rw [List.mem_append] at hn
      rcases hn with hn | hn
      · simp only [List.mem_cons, List.mem_singleton, List.not_mem_nil, or_false] at hn
        rcases hn with rfl | rfl | rfl <;> split_ifs <;> omega
      · have hsing : ∀ (c : Prop) (inst : Decidable c) (x : ℤ),
            n ∈ (if c then [x] else ([] : List ℤ)) → n = x := by
          intro c inst x hmem
          split at hmem
          · simpa using hmem
          · simp at hmem
        have hx := hsing _ _ _ hn
        subst hx
        split_ifs <;> omega
    subst hfn
    by_cases hc : (n_notes : ℤ) ≤ n
    · rw [if_pos hc]
      have h0 : 0 ≤ n % 12 := Int.emod_nonneg n (by norm_num)
      have hlt : n % 12 < 12 := Int.emod_lt_of_pos n (by norm_num)
      exact ⟨by omega, by omega⟩
    · rw [if_neg hc]
      exact ⟨hlow, by omega⟩

/-- C6 (amended): for every specifier that `ChordSpecToIndices` accepts
and every note table of size at least 12, the returned index list is
sorted ascending and every index `i` satisfies `-1 ≤ i < tableSize`:
any stacked offset at or above the table size is reduced modulo 12 into
`[0, 12)`, and unreduced offsets stay below the table size — but a flatted
I-degree specifier (root offset `0 - 1`) yields the index `-1`, so indices
are not all non-negative (Python's negative indexing makes
`ChordSpecToNotes` read the table's last entry rather than raising). -/
theorem chordSpecToIndices_bounds (n_notes : ℕ) (spec : List Char) (l : List ℤ)
    (h12 : 12 ≤ n_notes) (h : chordSpecToIndices n_notes spec = some l) :
    l.Sorted (· ≤ ·) ∧ ∀ i ∈ l, -1 ≤ i ∧ i < (n_notes : ℤ) := by
  simp only [chordSpecToIndices, Option.map_eq_some'] at h
  obtain ⟨step, hstep, hl⟩ := h
  subst hl
  exact chordIndices_bounds n_notes _ _ _ step h12 (progressionSteps_bounds _ step hstep)

/-- Counterexample to C6 as stated: the recognized flatted specifier
`'bI'` on a 24-entry table resolves to `[-1, 3, 6]`, whose first index is
negative — not every returned index satisfies `0 ≤ i`. -/
theorem chordSpecToIndices_cex :
    chordSpecToIndices 24 ['b', 'I'] = some [-1, 3, 6] ∧ ¬ ((0 : ℤ) ≤ -1) := by
  exact ⟨by decide, by decide⟩

/-- Witness for the amended C6 theorem at the recognized specifier `'I7'`
on a 24-entry table, which resolves to `[0, 4, 7, 11]`. -/
theorem chordSpecToIndices_bounds_witness :
    List.Sorted (· ≤ ·) [(0 : ℤ), 4, 7, 11] ∧
    ∀ i ∈ [(0 : ℤ), 4, 7, 11], -1 ≤ i ∧ i < ((24 : ℕ) : ℤ) :=
  chordSpecToIndices_bounds 24 ['I', '7'] [0, 4, 7, 11] (by norm_num) (by decide)

theorem innerPing_pingc_lt (n_pings : ℕ) (mult : ℚ) :
    ∀ (ns : List ℚ) (pingc : ℕ) (pings : List ℚ), ns ≠ [] →
      pingc < (innerPing n_pings mult ns pingc pings).2 := by
  intro ns
  induction ns with
  | nil => intro _ _ h; exact absurd rfl h
  | cons a rest ih =>
    intro pingc pings _
    rw [innerPing]
    split
    · exact Nat.lt_succ_self pingc
    · cases rest with
      | nil => exact Nat.lt_succ_self pingc
      | cons b bs =>
        have := ih (pingc + 1) (pings ++ [a * mult]) (by simp)
        omega

theorem innerPing_count_eq (n_pings : ℕ) (mult : ℚ) :
    ∀ (ns : List ℚ) (pingc : ℕ) (pings : List ℚ), pingc = pings.length →
      (innerPing n_pings mult ns pingc pings).2 =
        (innerPing n_pings mult ns pingc pings).1.length := by
  intro ns
  induction ns with
  | nil => intro pingc pings h; exact h
  | cons a rest ih =>
    intro pingc pings h
    rw [innerPing]
    split
    · simp [h]
    · exact ih (pingc + 1) (pings ++ [a * mult]) (by simp [h])

theorem innerPing_mem (n_pings : ℕ) (mult : ℚ) :
    ∀ (ns : List ℚ) (pingc : ℕ) (pings : List ℚ),
      ∀ x ∈ (innerPing n_pings mult ns pingc pings).1,
        x ∈ pings ∨ ∃ f ∈ ns, x = f * mult := by
  intro ns
  induction ns with
  | nil => intro pingc pings x hx; exact Or.inl hx
  | cons a rest ih =>
    intro pingc pings x hx
    rw [innerPing] at hx
    split at hx
    · rcases List.mem_append.mp hx with hx | hx
      · exact Or.inl hx
      · exact Or.inr ⟨a, List.mem_cons_self a rest, by simpa using hx⟩
    · rcases ih (pingc + 1) (pings ++ [a * mult]) x hx with hx' | ⟨f, hf, hfx⟩
      · rcases List.mem_append.mp hx' with hx'' | hx''
        · exact Or.inl hx''
        · exact Or.inr ⟨a, List.mem_cons_self a rest, by simpa using hx''⟩
      · exact Or.inr ⟨f, List.mem_cons_of_mem a hf, hfx⟩

theorem pingOuter_spec (notes : List ℚ) (n_pings : ℕ) (hne : notes ≠ []) :
    ∀ (fuel : ℕ) (mult : ℚ) (pingc : ℕ) (pings : List ℚ),
      pingc = pings.length →
      n_pings < fuel + pingc →
      (∃ k0 : ℕ, mult = 2 ^ k0) →
      (∀ x ∈ pings, ∃ f ∈ notes, ∃ k : ℕ, x = f * 2 ^ k) →
      ∃ l, pingOuter notes n_pings fuel mult pingc pings = some l ∧
        n_pings < l.length ∧
        ∀ x ∈ l, ∃ f ∈ notes, ∃ k : ℕ, x = f * 2 ^ k := by
  intro fuel
  induction fuel with
  | zero =>
    intro mult pingc pings hc hlt _ hmem
    have hgt : n_pings < pingc := by omega
    refine ⟨pings, ?_, hc ▸ hgt, hmem⟩
    rw [pingOuter, if_neg (by omega)]
  | succ fuel ih =>
    intro mult pingc pings hc hlt hk hmem
    by_cases hif : pingc ≤ n_pings
    · rw [pingOuter, if_pos hif]
      have h1 : pingc < (innerPing n_pings mult notes pingc pings).2 :=
        innerPing_pingc_lt n_pings mult notes pingc pings hne
      have h2 := innerPing_count_eq n_pings mult notes pingc pings hc
      have h3 : ∀ x ∈ (innerPing n_pings mult notes pingc pings).1,
          ∃ f ∈ notes, ∃ k : ℕ, x = f * 2 ^ k := by
        intro x hx
        rcases innerPing_mem n_pings mult notes pingc pings x hx with hx' | ⟨f, hf, hfx⟩
        · exact hmem x hx'
        · obtain ⟨k0, rfl⟩ := hk
          exact ⟨f, hf, k0, hfx⟩
      obtain ⟨k0, hk0⟩ := hk
      exact ih (mult * 2) _ _ h2 (by omega) ⟨k0 + 1, by rw [hk0]; ring⟩ h3
    · push_neg at hif
      refine ⟨pings, ?_, hc ▸ hif, hmem⟩
      rw [pingOuter, if_neg (by omega)]

/-- C9: for every nonempty chord frequency list and every required ping
count `n_pings`, `MakeChordCompatiblePingNotes` terminates (the modelled
sweep budget is never exhausted), and the list it builds and hands to
`SetupPings` has more than `n_pings` entries, is sorted ascending, and
consists of chord frequencies multiplied by powers of two (successive
octave doublings). -/
theorem chordCompatiblePings_spec (notes : List ℚ) (n_pings : ℕ) (hne : notes ≠ []) :
    ∃ l, chordCompatiblePings notes n_pings = some l ∧
      n_pings < l.length ∧
      l.Sorted (· ≤ ·) ∧
      (∀ x ∈ l, ∃ f ∈ notes, ∃ k : ℕ, x = f * 2 ^ k) ∧
      (∀ (rnd : ℕ → ℚ) (expq : ℚ → ℚ) (s : Tones) (chords : List (Option (List ℚ))) (ci : ℕ),
        chords.get? ci = some (some notes) →
        makeChordCompatiblePingNotes rnd expq chords s ci n_pings =
          some (setupPings rnd expq s l (1/2) 1)) := by
  obtain ⟨p, hp, hlen, hmem⟩ := pingOuter_spec notes n_pings hne (n_pings + 1) 1 0 [] rfl
    (by omega) ⟨0, by norm_num⟩ (by simp)
  refine ⟨List.insertionSort (· ≤ ·) p, ?_, ?_, List.sorted_insertionSort _ _, ?_, ?_⟩
  · rw [chordCompatiblePings, hp, Option.map_some']
  · rw [(List.perm_insertionSort _ _).length_eq]
    exact hlen
  · intro x hx
    exact hmem x ((List.perm_insertionSort _ _).mem_iff.mp hx)
  · intro rnd expq s chords ci hci
    simp only [makeChordCompatiblePingNotes, hci, chordCompatiblePings, hp, Option.map_some']

set_option maxRecDepth 100000 in
/-- Witness for C9 at the concrete chord `[100, 200]` with required count
3: the built list is `[100, 200, 200, 400]`. -/
theorem chordCompatiblePings_spec_witness :
    ([100, 200] : List ℚ) ≠ [] ∧
    (∃ l, chordCompatiblePings [100, 200] 3 = some l ∧
      3 < l.length ∧
      l.Sorted (· ≤ ·) ∧
      (∀ x ∈ l, ∃ f ∈ ([100, 200] : List ℚ), ∃ k : ℕ, x = f * 2 ^ k) ∧
      (∀ (rnd : ℕ → ℚ) (expq : ℚ → ℚ) (s : Tones) (chords : List (Option (List ℚ))) (ci : ℕ),
        chords.get? ci = some (some [100, 200]) →
        makeChordCompatiblePingNotes rnd expq chords s ci 3 =
          some (setupPings rnd expq s l (1/2) 1))) :=
  ⟨by simp, chordCompatiblePings_spec [100, 200] 3 (by simp)⟩
